import Mathlib

/-
Verification development for the CFP Kalshi odds tracker (`src/app.py`).

The file shallowly embeds the market-processing core of the script:
`fetch_cfp_markets` (the post-fetch sorting step), `summarize_cfp_markets`,
`compute_movers`, and `refresh_data` (as an explicit state transformer over
the Streamlit session state).  Numeric market values are modelled as
rationals; optional record fields as `Option`; Python dicts keyed by ticker
as functions `String → Option ℚ`.
-/

namespace CFP

/-- A raw market record from the Kalshi `/markets` endpoint.  Every field the
script reads via `m.get(...)` is optional. -/
structure Market where
  ticker : Option String
  title : Option String
  yes_price : Option ℚ
  no_price : Option ℚ
  last_price : Option ℚ
  volume : Option ℤ
deriving DecidableEq, Repr

/-- `m.get("title", m.get("ticker", ""))`, used both by the sort key of
`fetch_cfp_markets` and for the `Team` column of `summarize_cfp_markets`. -/
def Market.titleOrTicker (m : Market) : String :=
  m.title.getD (m.ticker.getD "")

/-- First component of `sort_key` in `fetch_cfp_markets`: `-yp` where `yp`
is `yes_price`, with `None` replaced by `-1`. -/
def Market.negYes (m : Market) : ℚ :=
  -(m.yes_price.getD (-1))

/-- The Python tuple comparison on `sort_key m = (-yp, title_or_ticker)`,
as a boolean lexicographic `≤`. -/
def sortKeyLe (a b : Market) : Bool :=
  decide (a.negYes < b.negYes) ||
    (decide (a.negYes = b.negYes) && decide (a.titleOrTicker ≤ b.titleOrTicker))

/-- The pure part of `fetch_cfp_markets`: `markets.sort(key=sort_key)`, a
stable sort of the raw market list by `(-yes_price` with `None` as `-1`,
`title-or-ticker)`.  The HTTP fetch that produces `markets` is outside the
embedding; it is the argument here. -/
def fetch_cfp_markets (markets : List Market) : List Market :=
  markets.mergeSort sortKeyLe

/-- One row produced by `summarize_cfp_markets`; field names follow the
dict keys of the script. -/
structure Row where
  Team : String
  Ticker : String
  YES : Option ℚ
  NO : Option ℚ
  Volume : Option ℤ
deriving DecidableEq, Repr

/-- `summarize_cfp_markets`: one output dict per input market, with
`Team = m.get("title", m.get("ticker", ""))`, `Ticker = m.get("ticker", "")`,
`YES = m.get("yes_price")`, `NO = m.get("no_price")`,
`Volume = m.get("volume")`. -/
def summarize_cfp_markets (markets : List Market) : List Row :=
  markets.map fun m =>
    { Team := m.titleOrTicker
      Ticker := m.ticker.getD ""
      YES := m.yes_price
      NO := m.no_price
      Volume := m.volume }

/-- One mover dict appended by `compute_movers`; field names follow the
dict keys of the script. -/
structure Mover where
  Team : String
  Ticker : String
  Prev : ℚ
  Now : ℚ
  Diff : ℚ
deriving DecidableEq, Repr

/-- A Python dict from ticker to price, modelled extensionally. -/
def PriceMap : Type := String → Option ℚ

/-- The empty dict `{}`. -/
def PriceMap.empty : PriceMap := fun _ => none

/-- Dict assignment `d[k] = v`. -/
def PriceMap.set (d : PriceMap) (k : String) (v : ℚ) : PriceMap :=
  fun x => if x = k then some v else d x

/-- The body of the `for row in current_rows` loop of `compute_movers`,
with the two accumulators (`movers`, `new_prices`) passed explicitly. -/
def computeMoversLoop (prev_prices : PriceMap) (min_move_points : ℚ) :
    List Row → List Mover × PriceMap → List Mover × PriceMap
  | [], acc => acc
  | row :: rest, (movers, new_prices) =>
    match row.YES with
    | none => computeMoversLoop prev_prices min_move_points rest (movers, new_prices)
    | some price =>
      let np := new_prices.set row.Ticker price
      match prev_prices row.Ticker with
      | none => computeMoversLoop prev_prices min_move_points rest (movers, np)
      | some prev =>
        let diff := price - prev
        if min_move_points ≤ |diff| then
          computeMoversLoop prev_prices min_move_points rest
            (movers ++ [⟨row.Team, row.Ticker, prev, price, diff⟩], np)
        else
          computeMoversLoop prev_prices min_move_points rest (movers, np)

/-- `compute_movers(current_rows, prev_prices, min_move_points)`: returns
`(movers, new_prices)` with `movers` the rows whose YES price moved by at
least the threshold against `prev_prices`, and `new_prices` the dict of all
present current YES prices. -/
def compute_movers (current_rows : List Row) (prev_prices : PriceMap)
    (min_move_points : ℚ) : List Mover × PriceMap :=
  computeMoversLoop prev_prices min_move_points current_rows ([], PriceMap.empty)

/-- The direction string of the ticker-tape line in `refresh_data`:
`"UP" if m["Diff"] > 0 else "DOWN"`. -/
def moverDirection (m : Mover) : String :=
  if 0 < m.Diff then "UP" else "DOWN"

/-- The sign prefix of the ticker-tape line: `"+" if m["Diff"] > 0 else ""`. -/
def moverSign (m : Mover) : String :=
  if 0 < m.Diff then "+" else ""

/-- One ticker-tape line appended by `refresh_data` for a mover. -/
def tapeLine (now_str : String) (m : Mover) : String :=
  "[" ++ now_str ++ "] " ++ m.Ticker ++ "  " ++ m.Team ++ "  " ++
    toString m.Prev ++ " → " ++ toString m.Now ++ "  (" ++
    moverSign m ++ toString m.Diff ++ ") " ++ moverDirection m

/-- The Streamlit session state the script reads and writes. -/
structure AppState where
  cfp_prev_prices : PriceMap
  cfp_tape : List String
  last_refresh_ts : Option ℚ

/-- `refresh_data` as a state transformer.  The upstream fetch is modelled
by the `fetched` argument: `.error` when `fetch_cfp_markets` raised, `.ok`
with the raw (unsorted) market list otherwise.  On error it returns
`([], [])` and leaves the session state untouched; on success it builds the
rows, computes the movers, replaces `cfp_prev_prices` with `new_prices`,
stamps `last_refresh_ts`, and appends one tape line per mover. -/
def refresh_data (fetched : Except String (List Market)) (min_move : ℚ)
    (now_str : String) (now_ts : ℚ) (s : AppState) :
    (List Row × List Mover) × AppState :=
  match fetched with
  | .error _ => (([], []), s)
  | .ok rawMarkets =>
    let markets := fetch_cfp_markets rawMarkets
    let rows := summarize_cfp_markets markets
    let mn := compute_movers rows s.cfp_prev_prices min_move
    let s' : AppState :=
      { cfp_prev_prices := mn.2
        cfp_tape := s.cfp_tape ++ mn.1.map (tapeLine now_str)
        last_refresh_ts := some now_ts }
    ((rows, mn.1), s')

/-
Characterisation lemmas for `compute_movers`: the movers list is a
`filterMap` of a per-row emission function, and the `new_prices` dict is a
left fold of per-row dict assignments.
-/

/-- What the loop body of `compute_movers` emits for one row. -/
def emitMover (prev_prices : PriceMap) (min_move_points : ℚ) (row : Row) :
    Option Mover :=
  match row.YES with
  | none => none
  | some price =>
    match prev_prices row.Ticker with
    | none => none
    | some prev =>
      if min_move_points ≤ |price - prev| then
        some ⟨row.Team, row.Ticker, prev, price, price - prev⟩
      else none

/-- How one row updates the `new_prices` dict. -/
def npStep (np : PriceMap) (row : Row) : PriceMap :=
  match row.YES with
  | none => np
  | some price => np.set row.Ticker price

lemma computeMoversLoop_fst (prev : PriceMap) (t : ℚ) :
    ∀ (rows : List Row) (movers : List Mover) (np : PriceMap),
      (computeMoversLoop prev t rows (movers, np)).1 =
        movers ++ rows.filterMap (emitMover prev t) := by
  intro rows
  induction rows with
  | nil => intro movers np; simp [computeMoversLoop]
  | cons row rest ih =>
    intro movers np
    cases hy : row.YES with
    | none =>
      simp [computeMoversLoop, emitMover, hy, ih]
    | some price =>
      cases hp : prev row.Ticker with
      | none => simp [computeMoversLoop, emitMover, hy, hp, ih]
      | some pv =>
        by_cases hth : t ≤ |price - pv|
        · simp [computeMoversLoop, emitMover, hy, hp, hth, ih]
        · simp [computeMoversLoop, emitMover, hy, hp, hth, ih]

lemma computeMoversLoop_snd (prev : PriceMap) (t : ℚ) :
    ∀ (rows : List Row) (movers : List Mover) (np : PriceMap),
      (computeMoversLoop prev t rows (movers, np)).2 = rows.foldl npStep np := by
  intro rows
  induction rows with
  | nil => intro movers np; simp [computeMoversLoop]
  | cons row rest ih =>
    intro movers np
    cases hy : row.YES with
    | none =>
      simp [computeMoversLoop, npStep, hy, ih]
    | some price =>
      cases hp : prev row.Ticker with
      | none => simp [computeMoversLoop, npStep, hy, hp, ih]
      | some pv =>
        by_cases hth : t ≤ |price - pv|
        · simp [computeMoversLoop, npStep, hy, hp, hth, ih]
        · simp [computeMoversLoop, npStep, hy, hp, hth, ih]

lemma compute_movers_fst (rows : List Row) (prev : PriceMap) (t : ℚ) :
    (compute_movers rows prev t).1 = rows.filterMap (emitMover prev t) := by
  simp [compute_movers, computeMoversLoop_fst]

lemma compute_movers_snd (rows : List Row) (prev : PriceMap) (t : ℚ) :
    (compute_movers rows prev t).2 = rows.foldl npStep PriceMap.empty := by
  simp [compute_movers, computeMoversLoop_snd]

lemma emitMover_eq_some {prev : PriceMap} {t : ℚ} {row : Row} {mv : Mover} :
    emitMover prev t row = some mv ↔
      ∃ price pv, row.YES = some price ∧ prev row.Ticker = some pv ∧
        t ≤ |price - pv| ∧ mv = ⟨row.Team, row.Ticker, pv, price, price - pv⟩ := by
  unfold emitMover
  cases hy : row.YES with
  | none => simp
  | some price =>
    cases hp : prev row.Ticker with
    | none => simp
    | some pv =>
      by_cases hth : t ≤ |price - pv|
      · simp only [hth, if_pos]
        constructor
        · rintro h
          exact ⟨price, pv, rfl, rfl, hth, (Option.some_inj.mp h).symm⟩
        · rintro ⟨p, q, hp1, hq1, _, hmv⟩
          obtain rfl : price = p := Option.some_inj.mp hp1
          obtain rfl : pv = q := Option.some_inj.mp hq1
          simp [hmv]
      · simp only [hth, if_neg, not_false_iff]
        constructor
        · rintro ⟨⟩
        · rintro ⟨p, q, hp1, hq1, hth2, _⟩
          obtain rfl : price = p := Option.some_inj.mp hp1
          obtain rfl : pv = q := Option.some_inj.mp hq1
          exact absurd hth2 hth

lemma mem_compute_movers {rows : List Row} {prev : PriceMap} {t : ℚ} {mv : Mover} :
    mv ∈ (compute_movers rows prev t).1 ↔
      ∃ row ∈ rows, emitMover prev t row = some mv := by
  rw [compute_movers_fst, List.mem_filterMap]

/-- Every emitted mover records a present previous price, the current price
of one of the rows, the exact signed difference, and a move of at least the
threshold. -/
lemma mover_spec {rows : List Row} {prev : PriceMap} {t : ℚ} {mv : Mover}
    (h : mv ∈ (compute_movers rows prev t).1) :
    prev mv.Ticker = some mv.Prev ∧ mv.Diff = mv.Now - mv.Prev ∧ t ≤ |mv.Diff| ∧
      ∃ row ∈ rows, row.Ticker = mv.Ticker ∧ row.YES = some mv.Now := by
  obtain ⟨row, hrow, hemit⟩ := mem_compute_movers.mp h
  obtain ⟨price, pv, hy, hp, hth, hmv⟩ := emitMover_eq_some.mp hemit
  subst hmv
  exact ⟨hp, by ring, hth, row, hrow, rfl, hy⟩

lemma foldl_npStep_isSome_mono :
    ∀ (rows : List Row) (np : PriceMap) (tk : String),
      (np tk).isSome → ((rows.foldl npStep np) tk).isSome := by
  intro rows
  induction rows with
  | nil => intro np tk h; simpa using h
  | cons row rest ih =>
    intro np tk h
    refine ih (npStep np row) tk ?_
    unfold npStep PriceMap.set
    cases row.YES with
    | none => exact h
    | some price =>
      by_cases htk : tk = row.Ticker <;> simp [htk, h]

lemma foldl_npStep_isSome_of_mem :
    ∀ (rows : List Row) (np : PriceMap) (row : Row),
      row ∈ rows → row.YES.isSome → ((rows.foldl npStep np) row.Ticker).isSome := by
  intro rows
  induction rows with
  | nil => intro np row h; simp at h
  | cons r rest ih =>
    intro np row hmem hy
    rcases List.mem_cons.mp hmem with rfl | hmem
    · obtain ⟨price, hp⟩ := Option.isSome_iff_exists.mp hy
      refine foldl_npStep_isSome_mono rest (npStep np row) row.Ticker ?_
      simp [npStep, hp, PriceMap.set]
    · exact ih (npStep np r) row hmem hy

lemma foldl_npStep_eq_some :
    ∀ (rows : List Row) (np : PriceMap) (tk : String) (q : ℚ),
      (rows.foldl npStep np) tk = some q →
        np tk = some q ∨ ∃ row ∈ rows, row.Ticker = tk ∧ row.YES = some q := by
  intro rows
  induction rows with
  | nil => intro np tk q h; exact Or.inl (by simpa using h)
  | cons r rest ih =>
    intro np tk q h
    rcases ih (npStep np r) tk q (by simpa using h) with hnp | ⟨row, hmem, htk, hy⟩
    · unfold npStep PriceMap.set at hnp
      cases hy : r.YES with
      | none => rw [hy] at hnp; exact Or.inl hnp
      | some price =>
        rw [hy] at hnp
        by_cases htk : tk = r.Ticker
        · simp only [htk, if_pos] at hnp
          exact Or.inr ⟨r, List.mem_cons_self _ _, htk.symm, by rw [hy, hnp]⟩
        · simp only [if_neg htk] at hnp
          exact Or.inl hnp
    · exact Or.inr ⟨row, List.mem_cons_of_mem _ hmem, htk, hy⟩

lemma foldl_npStep_not_mem :
    ∀ (rows : List Row) (np : PriceMap) (tk : String),
      (∀ row ∈ rows, row.Ticker = tk → row.YES = none) →
        (rows.foldl npStep np) tk = np tk := by
  intro rows
  induction rows with
  | nil => intro np tk _; rfl
  | cons r rest ih =>
    intro np tk h
    have hrest : ∀ row ∈ rest, row.Ticker = tk → row.YES = none :=
      fun row hm => h row (List.mem_cons_of_mem _ hm)
    rw [List.foldl_cons, ih (npStep np r) tk hrest]
    unfold npStep PriceMap.set
    cases hy : r.YES with
    | none => rfl
    | some price =>
      by_cases htk : tk = r.Ticker
      · exact absurd (h r (List.mem_cons_self _ _) htk.symm) (by simp [hy])
      · simp [htk]

lemma foldl_npStep_nodup :
    ∀ (rows : List Row) (np : PriceMap) (row : Row) (p : ℚ),
      (rows.map Row.Ticker).Nodup → row ∈ rows → row.YES = some p →
        (rows.foldl npStep np) row.Ticker = some p := by
  intro rows
  induction rows with
  | nil => intro np row p _ h; simp at h
  | cons r rest ih =>
    intro np row p hnd hmem hy
    have hnd2 : (∀ x ∈ rest, ¬ x.Ticker = r.Ticker) ∧
        (rest.map Row.Ticker).Nodup := by simpa using hnd
    rcases List.mem_cons.mp hmem with rfl | hmem
    · have habs : ∀ row2 ∈ rest, row2.Ticker = row.Ticker → row2.YES = none := by
        intro row2 hm2 ht2
        exact absurd ht2 (hnd2.1 row2 hm2)
      rw [List.foldl_cons, foldl_npStep_not_mem rest _ _ habs]
      simp [npStep, hy, PriceMap.set]
    · exact ih (npStep np r) row p hnd2.2 hmem hy

lemma compute_movers_np_isSome {rows : List Row} {prev : PriceMap} {t : ℚ}
    {tk : String} :
    (((compute_movers rows prev t).2) tk).isSome ↔
      ∃ row ∈ rows, row.Ticker = tk ∧ row.YES.isSome := by
  rw [compute_movers_snd]
  constructor
  · intro h
    by_contra hno
    push_neg at hno
    have hnone : ∀ row ∈ rows, row.Ticker = tk → row.YES = none := by
      intro row hm ht
      have := hno row hm ht
      cases hy : row.YES with
      | none => rfl
      | some price => exact absurd (by simp [hy]) this
    rw [foldl_npStep_not_mem rows _ _ hnone] at h
    simp [PriceMap.empty] at h
  · rintro ⟨row, hmem, rfl, hy⟩
    exact foldl_npStep_isSome_of_mem rows _ row hmem hy

/-
Concrete inputs used by witnesses and counterexamples.
-/

/-- Two current rows: OSU moved by 2 points, TEX by 1 point. -/
def wRows1 : List Row :=
  [⟨"Ohio State", "OSU", some 61, some 39, some 1000⟩,
   ⟨"Texas", "TEX", some 50, none, none⟩]

/-- Previous prices for `wRows1`. -/
def wPrev1 : PriceMap := (PriceMap.empty.set "OSU" 59).set "TEX" 49

/-- One current row with a present YES price. -/
def wRows3 : List Row := [⟨"Texas", "TEX", some 50, none, none⟩]

/-- A previous-price dict holding the same price as the current row of
`wRows3`. -/
def wPrev2 : PriceMap := PriceMap.empty.set "TEX" 50

/-- C1: with a non-negative threshold `t`, `compute_movers` emits a mover
for ticker `tk` iff some current row has that ticker, a present YES price
`p` and a present previous price `pv` with `|p - pv| ≥ t`; and every row
with a present YES price — sub-threshold movers included — still updates
the returned new-price dict with its current value. -/
theorem compute_movers_threshold_gate (rows : List Row) (prev : PriceMap)
    (t : ℚ) (_ht : 0 ≤ t) (tk : String) :
    ((∃ mv ∈ (compute_movers rows prev t).1, mv.Ticker = tk) ↔
      ∃ row ∈ rows, row.Ticker = tk ∧ ∃ p pv, row.YES = some p ∧
        prev tk = some pv ∧ t ≤ |p - pv|) ∧
    ((rows.map Row.Ticker).Nodup → ∀ row ∈ rows, ∀ p, row.YES = some p →
      (compute_movers rows prev t).2 row.Ticker = some p) := by
  constructor
  · constructor
    · rintro ⟨mv, hmv, rfl⟩
      obtain ⟨hp, hd, hth, row, hrow, htk, hy⟩ := mover_spec hmv
      exact ⟨row, hrow, htk, mv.Now, mv.Prev, hy, hp, hd ▸ hth⟩
    · rintro ⟨row, hrow, rfl, p, pv, hy, hp, hth⟩
      refine ⟨⟨row.Team, row.Ticker, pv, p, p - pv⟩, ?_, rfl⟩
      exact mem_compute_movers.mpr
        ⟨row, hrow, emitMover_eq_some.mpr ⟨p, pv, hy, hp, hth, rfl⟩⟩
  · intro hnd row hrow p hy
    rw [compute_movers_snd]
    exact foldl_npStep_nodup rows _ row p hnd hrow hy

/-- Witness for C1: threshold 2, OSU moved by 2 (emitted), TEX by 1
(not emitted but still retained). -/
theorem compute_movers_threshold_gate_witness :
    (0:ℚ) ≤ 2 ∧
    (((∃ mv ∈ (compute_movers wRows1 wPrev1 2).1, mv.Ticker = "OSU") ↔
      ∃ row ∈ wRows1, row.Ticker = "OSU" ∧ ∃ p pv, row.YES = some p ∧
        wPrev1 "OSU" = some pv ∧ (2:ℚ) ≤ |p - pv|) ∧
    ((wRows1.map Row.Ticker).Nodup → ∀ row ∈ wRows1, ∀ p, row.YES = some p →
      (compute_movers wRows1 wPrev1 2).2 row.Ticker = some p)) :=
  ⟨by norm_num, compute_movers_threshold_gate wRows1 wPrev1 2 (by norm_num) "OSU"⟩

/-- C2 counterexample: with threshold `0` a zero-delta mover is emitted
(`Now = Prev`), and the direction computed for the ticker tape is `"DOWN"`,
not a flat direction — refuting both `down ⟺ current < previous` and
`flat ⟺ current = previous`. -/
theorem direction_flat_counterexample :
    ∃ mv ∈ (compute_movers wRows3 wPrev2 0).1,
      mv.Now = mv.Prev ∧ moverDirection mv = "DOWN" := by
  refine ⟨⟨"Texas", "TEX", 50, 50, 0⟩, ?_, rfl, rfl⟩
  apply mem_compute_movers.mpr
  refine ⟨⟨"Texas", "TEX", some 50, none, none⟩, by simp [wRows3], ?_⟩
  apply emitMover_eq_some.mpr
  exact ⟨50, 50, rfl, rfl, by norm_num, by norm_num⟩

/-- C2 amended: with a positive threshold — the app's slider enforces a
minimum of 1 — every emitted mover has a nonzero delta, and the
ticker-tape direction is `"UP"` iff current > previous and `"DOWN"` iff
current < previous; no flat direction is ever recorded. -/
theorem direction_sign_law (rows : List Row) (prev : PriceMap) (t : ℚ)
    (ht : 0 < t) :
    ∀ mv ∈ (compute_movers rows prev t).1,
      (moverDirection mv = "UP" ↔ mv.Prev < mv.Now) ∧
      (moverDirection mv = "DOWN" ↔ mv.Now < mv.Prev) ∧
      moverDirection mv ≠ "flat" := by
  intro mv hmv
  obtain ⟨hp, hd, hth, _⟩ := mover_spec hmv
  have hne : mv.Diff ≠ 0 := by
    intro h0
    rw [h0] at hth
    simp only [abs_zero] at hth
    exact absurd hth (not_le.mpr ht)
  by_cases hpos : 0 < mv.Diff
  · have h1 : mv.Prev < mv.Now := by rw [hd] at hpos; linarith
    have h2 : ¬ mv.Now < mv.Prev := by linarith
    unfold moverDirection
    rw [if_pos hpos]
    exact ⟨⟨fun _ => h1, fun _ => rfl⟩,
      ⟨fun h => absurd h (by decide), fun h => absurd h h2⟩, by decide⟩
  · have hneg : mv.Diff < 0 := lt_of_le_of_ne (not_lt.mp hpos) hne
    have h1 : mv.Now < mv.Prev := by rw [hd] at hneg; linarith
    have h2 : ¬ mv.Prev < mv.Now := by linarith
    unfold moverDirection
    rw [if_neg hpos]
    exact ⟨⟨fun h => absurd h (by decide), fun h => absurd h h2⟩,
      ⟨fun _ => h1, fun _ => rfl⟩, by decide⟩

/-- Witness for the amended C2 at threshold 2. -/
theorem direction_sign_law_witness :
    (0:ℚ) < 2 ∧
    ∀ mv ∈ (compute_movers wRows1 wPrev1 2).1,
      (moverDirection mv = "UP" ↔ mv.Prev < mv.Now) ∧
      (moverDirection mv = "DOWN" ↔ mv.Now < mv.Prev) ∧
      moverDirection mv ≠ "flat" :=
  ⟨by norm_num, direction_sign_law wRows1 wPrev1 2 (by norm_num)⟩

/-- C3 counterexample: with an empty previous-price dict and threshold `0`,
the output of `compute_movers` contains no record at all, although the
current snapshot is non-empty — refuting "a record for every instrument in
the current snapshot, with `delta = None` when the previous value is
absent". -/
theorem no_record_counterexample :
    (compute_movers wRows3 PriceMap.empty 0).1 = [] ∧ wRows3 ≠ [] := by
  constructor
  · rw [compute_movers_fst]
    simp [wRows3, emitMover, PriceMap.empty]
  · simp [wRows3]

/-- C3 amended: an instrument whose previous value is absent is skipped by
`compute_movers` — no mover record carries its ticker, and there is no
`delta = None` record — while its present current value still enters the
new-price dict. -/
theorem prev_absent_skipped (rows : List Row) (prev : PriceMap) (t : ℚ) :
    ∀ row ∈ rows, prev row.Ticker = none →
      (∀ mv ∈ (compute_movers rows prev t).1, mv.Ticker ≠ row.Ticker) ∧
      (∀ p, row.YES = some p →
        (((compute_movers rows prev t).2) row.Ticker).isSome) := by
  intro row hrow hprev
  constructor
  · intro mv hmv heq
    obtain ⟨hp, _, _, _⟩ := mover_spec hmv
    rw [heq, hprev] at hp
    exact Option.noConfusion hp
  · intro p hy
    exact compute_movers_np_isSome.mpr ⟨row, hrow, rfl, by simp [hy]⟩

/-- Witness for the amended C3: TEX has a current price but no previous
price. -/
theorem prev_absent_skipped_witness :
    (⟨"Texas", "TEX", some 50, none, none⟩ : Row) ∈ wRows3 ∧
    PriceMap.empty "TEX" = none ∧
    ((∀ mv ∈ (compute_movers wRows3 PriceMap.empty 2).1,
        mv.Ticker ≠ (⟨"Texas", "TEX", some 50, none, none⟩ : Row).Ticker) ∧
      (∀ p, (⟨"Texas", "TEX", some 50, none, none⟩ : Row).YES = some p →
        (((compute_movers wRows3 PriceMap.empty 2).2)
          (⟨"Texas", "TEX", some 50, none, none⟩ : Row).Ticker).isSome)) :=
  ⟨by simp [wRows3], rfl,
    prev_absent_skipped wRows3 PriceMap.empty 2
      ⟨"Texas", "TEX", some 50, none, none⟩ (by simp [wRows3]) rfl⟩

/-- C9: on the first run (empty previous-price dict) no mover is emitted,
and the returned new-price dict holds exactly the present current prices:
an entry exists for a ticker iff some current row carries it with a present
YES price, and every stored value is the YES price of such a row. -/
theorem compute_movers_first_run (rows : List Row) (t : ℚ) :
    (compute_movers rows PriceMap.empty t).1 = [] ∧
    (∀ tk, (((compute_movers rows PriceMap.empty t).2) tk).isSome ↔
      ∃ row ∈ rows, row.Ticker = tk ∧ row.YES.isSome) ∧
    (∀ tk q, (compute_movers rows PriceMap.empty t).2 tk = some q →
      ∃ row ∈ rows, row.Ticker = tk ∧ row.YES = some q) := by
  refine ⟨?_, fun tk => compute_movers_np_isSome, ?_⟩
  · rw [compute_movers_fst]
    apply List.filterMap_eq_nil_iff.mpr
    intro row _
    unfold emitMover
    cases row.YES with
    | none => rfl
    | some price => rfl
  · intro tk q h
    rw [compute_movers_snd] at h
    rcases foldl_npStep_eq_some rows _ tk q h with hemp | hex
    · exact absurd hemp (by simp [PriceMap.empty])
    · exact hex

/-- Witness for C9 at a concrete snapshot. -/
theorem compute_movers_first_run_witness :
    (compute_movers wRows1 PriceMap.empty 2).1 = [] ∧
    (∀ tk, (((compute_movers wRows1 PriceMap.empty 2).2) tk).isSome ↔
      ∃ row ∈ wRows1, row.Ticker = tk ∧ row.YES.isSome) ∧
    (∀ tk q, (compute_movers wRows1 PriceMap.empty 2).2 tk = some q →
      ∃ row ∈ wRows1, row.Ticker = tk ∧ row.YES = some q) :=
  compute_movers_first_run wRows1 2

/-- C10: the new-price dict returned by `compute_movers` has an entry for a
ticker iff some current row carries that ticker with a present YES price;
every stored value is the (numeric) YES price of such a row; and when
tickers are unique each row's present YES price is stored under its
ticker. -/
theorem compute_movers_new_prices (rows : List Row) (prev : PriceMap)
    (t : ℚ) (tk : String) :
    ((((compute_movers rows prev t).2) tk).isSome ↔
      ∃ row ∈ rows, row.Ticker = tk ∧ row.YES.isSome) ∧
    (∀ q, (compute_movers rows prev t).2 tk = some q →
      ∃ row ∈ rows, row.Ticker = tk ∧ row.YES = some q) ∧
    ((rows.map Row.Ticker).Nodup → ∀ row ∈ rows, ∀ p, row.YES = some p →
      (compute_movers rows prev t).2 row.Ticker = some p) := by
  refine ⟨compute_movers_np_isSome, ?_, ?_⟩
  · intro q h
    rw [compute_movers_snd] at h
    rcases foldl_npStep_eq_some rows _ tk q h with hemp | hex
    · exact absurd hemp (by simp [PriceMap.empty])
    · exact hex
  · intro hnd row hrow p hy
    rw [compute_movers_snd]
    exact foldl_npStep_nodup rows _ row p hnd hrow hy

/-- Witness for C10 at a concrete snapshot. -/
theorem compute_movers_new_prices_witness :
    ((((compute_movers wRows1 wPrev1 2).2) "TEX").isSome ↔
      ∃ row ∈ wRows1, row.Ticker = "TEX" ∧ row.YES.isSome) ∧
    (∀ q, (compute_movers wRows1 wPrev1 2).2 "TEX" = some q →
      ∃ row ∈ wRows1, row.Ticker = "TEX" ∧ row.YES = some q) ∧
    ((wRows1.map Row.Ticker).Nodup → ∀ row ∈ wRows1, ∀ p, row.YES = some p →
      (compute_movers wRows1 wPrev1 2).2 row.Ticker = some p) :=
  compute_movers_new_prices wRows1 wPrev1 2 "TEX"

/-
Order properties of the sort in `fetch_cfp_markets`.
-/

lemma sortKeyLe_trans : ∀ (a b c : Market),
    sortKeyLe a b → sortKeyLe b c → sortKeyLe a c := by
  intro a b c h1 h2
  simp only [sortKeyLe, Bool.or_eq_true, Bool.and_eq_true, decide_eq_true_eq]
    at h1 h2 ⊢
  rcases h1 with h1 | ⟨he1, ht1⟩
  · rcases h2 with h2 | ⟨he2, _⟩
    · exact Or.inl (lt_trans h1 h2)
    · exact Or.inl (lt_of_lt_of_le h1 (le_of_eq he2))
  · rcases h2 with h2 | ⟨he2, ht2⟩
    · exact Or.inl (lt_of_le_of_lt (le_of_eq he1) h2)
    · exact Or.inr ⟨he1.trans he2, le_trans ht1 ht2⟩

lemma sortKeyLe_total : ∀ (a b : Market),
    (sortKeyLe a b || sortKeyLe b a) = true := by
  intro a b
  simp only [sortKeyLe, Bool.or_eq_true, Bool.and_eq_true, decide_eq_true_eq]
  rcases lt_trichotomy a.negYes b.negYes with h | h | h
  · exact Or.inl (Or.inl h)
  · rcases le_total a.titleOrTicker b.titleOrTicker with h2 | h2
    · exact Or.inl (Or.inr ⟨h, h2⟩)
    · exact Or.inr (Or.inr ⟨h.symm, h2⟩)
  · exact Or.inr (Or.inl h)

/-- Record with a missing YES price, title `"A"`. -/
def mA5 : Market := ⟨some "A", some "A", none, none, none, none⟩

/-- Record with the numeric YES price `-2`, title `"B"`. -/
def mB5 : Market := ⟨some "B", some "B", some (-2), none, none, none⟩

/-- C5 counterexample: the `None → -1` sentinel of `sort_key` collides with
numeric values below `-1`.  On this input the record with a missing YES
price sorts BEFORE the record with the numeric YES price `-2`, refuting
"every record with a missing value is ordered after all records with a
numeric value" for arbitrary input. -/
theorem fetch_order_counterexample :
    fetch_cfp_markets [mA5, mB5] = [mA5, mB5] ∧
    mA5.yes_price = none ∧ mB5.yes_price = some (-2) := by
  refine ⟨?_, rfl, rfl⟩
  have hab : sortKeyLe mA5 mB5 := by
    simp only [sortKeyLe, Bool.or_eq_true, Bool.and_eq_true, decide_eq_true_eq]
    refine Or.inl ?_
    show mA5.negYes < mB5.negYes
    norm_num [Market.negYes, mA5, mB5]
  have hsub : List.Sublist [mA5, mB5] (List.mergeSort [mA5, mB5] sortKeyLe) :=
    List.pair_sublist_mergeSort sortKeyLe_trans sortKeyLe_total hab
      (List.Sublist.refl _)
  exact (hsub.eq_of_length (by simp)).symm

/-- C5 amended: provided every present YES price exceeds `-1` (true of the
documented 0–100 price scale), the sorted snapshot is a permutation of the
input that is descending in YES price, places every record with a missing
YES price after all records with a numeric one, and keeps records that
compare equal under the sort key in their input order (the sort is
stable). -/
theorem fetch_cfp_markets_order (ms : List Market)
    (h : ∀ m ∈ ms, ∀ p, m.yes_price = some p → -1 < p) :
    (fetch_cfp_markets ms).Pairwise (fun a b =>
      (∀ p q, a.yes_price = some p → b.yes_price = some q → q ≤ p) ∧
      (a.yes_price = none → b.yes_price = none)) ∧
    List.Perm (fetch_cfp_markets ms) ms ∧
    (∀ a b, sortKeyLe a b → sortKeyLe b a → List.Sublist [a, b] ms →
      List.Sublist [a, b] (fetch_cfp_markets ms)) := by
  refine ⟨?_, List.mergeSort_perm ms sortKeyLe, ?_⟩
  · have hs := List.sorted_mergeSort sortKeyLe_trans sortKeyLe_total ms
    refine List.Pairwise.imp_of_mem ?_ hs
    intro a b _ hb hle
    have hb2 : b ∈ ms := List.mem_mergeSort.mp hb
    simp only [sortKeyLe, Bool.or_eq_true, Bool.and_eq_true, decide_eq_true_eq]
      at hle
    constructor
    · intro p q hap hbq
      have hna : a.negYes = -p := by simp [Market.negYes, hap]
      have hnb : b.negYes = -q := by simp [Market.negYes, hbq]
      rcases hle with hlt | ⟨heq, _⟩
      · rw [hna, hnb] at hlt; linarith
      · rw [hna, hnb] at heq; linarith
    · intro hanone
      have hna : a.negYes = 1 := by simp [Market.negYes, hanone]
      cases hbq : b.yes_price with
      | none => rfl
      | some q =>
        have hq : -1 < q := h b hb2 q hbq
        have hnb : b.negYes = -q := by simp [Market.negYes, hbq]
        rcases hle with hlt | ⟨heq, _⟩
        · rw [hna, hnb] at hlt; linarith
        · rw [hna, hnb] at heq; linarith
  · intro a b h1 h2 hsub
    exact List.pair_sublist_mergeSort sortKeyLe_trans sortKeyLe_total h1 hsub

/-- Two well-formed markets: OSU priced 61, TEX with no YES price. -/
def wMarkets : List Market :=
  [⟨some "OSU", some "Ohio State", some 61, some 39, none, some 1000⟩,
   ⟨some "TEX", some "Texas", none, none, some 58, none⟩]

/-- Witness for the amended C5 on markets whose prices are on the 0–100
scale. -/
theorem fetch_cfp_markets_order_witness :
    (∀ m ∈ wMarkets, ∀ p, m.yes_price = some p → -1 < p) ∧
    ((fetch_cfp_markets wMarkets).Pairwise (fun a b =>
      (∀ p q, a.yes_price = some p → b.yes_price = some q → q ≤ p) ∧
      (a.yes_price = none → b.yes_price = none)) ∧
    List.Perm (fetch_cfp_markets wMarkets) wMarkets ∧
    (∀ a b, sortKeyLe a b → sortKeyLe b a → List.Sublist [a, b] wMarkets →
      List.Sublist [a, b] (fetch_cfp_markets wMarkets))) := by
  have h : ∀ m ∈ wMarkets, ∀ p, m.yes_price = some p → -1 < p := by
    intro m hm p hp
    simp only [wMarkets, List.mem_cons, List.not_mem_nil, or_false] at hm
    rcases hm with rfl | rfl
    · simp only at hp
      obtain rfl : (61:ℚ) = p := Option.some_inj.mp hp
      norm_num
    · exact absurd hp (by simp)
  exact ⟨h, fetch_cfp_markets_order wMarkets h⟩

/-
Claims about `summarize_cfp_markets`.
-/

/-- A raw record with no fields at all. -/
def mBlank : Market := ⟨none, none, none, none, none, none⟩

/-- C6 counterexample: a record with a missing identifier is NOT dropped by
`summarize_cfp_markets`; it yields a row whose `Ticker` is the empty
string, so the produced snapshot does contain a blank identifier. -/
theorem summarize_keeps_blank_counterexample :
    summarize_cfp_markets [mBlank] = [⟨"", "", none, none, none⟩] ∧
    ∃ r ∈ summarize_cfp_markets [mBlank], r.Ticker = "" := by
  refine ⟨rfl, ⟨"", "", none, none, none⟩, ?_, rfl⟩
  simp [summarize_cfp_markets, mBlank, Market.titleOrTicker]

/-- C6 amended: `summarize_cfp_markets` drops nothing: it produces exactly
one row per raw record, substituting the empty string for a missing ticker
(and title); blank identifiers are kept and uniqueness is not enforced. -/
theorem summarize_drops_nothing (ms : List Market) :
    (summarize_cfp_markets ms).length = ms.length ∧
    (∀ r ∈ summarize_cfp_markets ms, ∃ m ∈ ms,
      r.Ticker = m.ticker.getD "" ∧ r.Team = m.titleOrTicker ∧
        r.YES = m.yes_price) := by
  constructor
  · simp [summarize_cfp_markets]
  · intro r hr
    rw [summarize_cfp_markets, List.mem_map] at hr
    obtain ⟨m, hm, rfl⟩ := hr
    exact ⟨m, hm, rfl, rfl, rfl⟩

/-- Witness for the amended C6 on a concrete record with no identifier. -/
theorem summarize_drops_nothing_witness :
    (summarize_cfp_markets [mBlank]).length = [mBlank].length ∧
    (∀ r ∈ summarize_cfp_markets [mBlank], ∃ m ∈ [mBlank],
      r.Ticker = m.ticker.getD "" ∧ r.Team = m.titleOrTicker ∧
        r.YES = m.yes_price) :=
  summarize_drops_nothing [mBlank]

/-- A raw record whose YES price is absent while `last_price` is 58. -/
def mLP : Market := ⟨some "TEX", some "Texas", none, none, some 58, none⟩

/-- C7 counterexample: when `yes_price` is absent the displayed price is
absent as well, even though `last_price = 58` is present: the code never
falls back to `last_price`. -/
theorem yes_fallback_counterexample :
    (summarize_cfp_markets [mLP]).map Row.YES = [none] ∧
    mLP.last_price = some 58 :=
  ⟨rfl, rfl⟩

/-- C7 amended: the displayed price of every row is exactly the record's
`yes_price` — present or absent — and `last_price` is never consulted.
(`compute_movers` then reads the same `YES` column, so the rule is applied
uniformly.) -/
theorem yes_is_yes_price (ms : List Market) :
    (summarize_cfp_markets ms).map Row.YES = ms.map Market.yes_price := by
  induction ms with
  | nil => rfl
  | cons m rest ih =>
    simp only [summarize_cfp_markets, List.map_cons] at ih ⊢
    rw [ih]

/-
Claims about `refresh_data`.
-/

/-- C8: when the upstream fetch fails, `refresh_data` returns empty rows
and movers and leaves the whole session state — the retained price dict
and the ticker-tape log included — unchanged. -/
theorem refresh_data_fetch_failure (e : String) (mm : ℚ) (ns : String)
    (ts : ℚ) (s : AppState) :
    refresh_data (.error e) mm ns ts s = (([], []), s) ∧
    (refresh_data (.error e) mm ns ts s).2.cfp_prev_prices = s.cfp_prev_prices ∧
    (refresh_data (.error e) mm ns ts s).2.cfp_tape = s.cfp_tape :=
  ⟨rfl, rfl, rfl⟩

/-- A market present in the snapshot but with no YES price. -/
def mNoYes : Market := ⟨some "TEX", some "Texas", none, none, none, none⟩

/-- A session state that previously retained a price for TEX. -/
def s4 : AppState := ⟨PriceMap.empty.set "TEX" 50, [], none⟩

/-- C4 counterexample: after a refresh whose snapshot contains TEX with a
missing YES price, the new Retained State has NO entry for TEX — the
replacement map does not contain "every instrument of the current
snapshot", only those with a present price. -/
theorem retained_state_counterexample :
    (∃ r ∈ (refresh_data (.ok [mNoYes]) 2 "00:00:00" 0 s4).1.1,
      r.Ticker = "TEX") ∧
    ((refresh_data (.ok [mNoYes]) 2 "00:00:00" 0 s4).2.cfp_prev_prices) "TEX"
      = none := by
  have hms : fetch_cfp_markets [mNoYes] = [mNoYes] := by
    simp [fetch_cfp_markets]
  have hres : refresh_data (.ok [mNoYes]) 2 "00:00:00" 0 s4 =
      (([⟨"Texas", "TEX", none, none, none⟩], []),
        ⟨PriceMap.empty, [], some 0⟩) := by
    simp only [refresh_data, hms]
    rfl
  constructor
  · rw [hres]
    exact ⟨⟨"Texas", "TEX", none, none, none⟩, by simp, rfl⟩
  · rw [hres]
    rfl

/-- C4 amended: after a successful refresh, Retained State is replaced
wholesale — independently of its previous contents — with the map holding
exactly the present current YES prices: an entry exists for a ticker iff a
current row carries it with a present price (so instruments absent from
the snapshot, or present without a price, are dropped), every stored value
comes from a current row, and with unique tickers each present price is
stored under its ticker. -/
theorem retained_state_replaced (raw : List Market) (mm : ℚ) (ns : String)
    (ts : ℚ) (s : AppState) (tk : String) :
    ((((refresh_data (.ok raw) mm ns ts s).2.cfp_prev_prices) tk).isSome ↔
      ∃ row ∈ summarize_cfp_markets (fetch_cfp_markets raw),
        row.Ticker = tk ∧ row.YES.isSome) ∧
    (∀ q, ((refresh_data (.ok raw) mm ns ts s).2.cfp_prev_prices) tk = some q →
      ∃ row ∈ summarize_cfp_markets (fetch_cfp_markets raw),
        row.Ticker = tk ∧ row.YES = some q) ∧
    (((summarize_cfp_markets (fetch_cfp_markets raw)).map Row.Ticker).Nodup →
      ∀ row ∈ summarize_cfp_markets (fetch_cfp_markets raw),
        ∀ p, row.YES = some p →
          ((refresh_data (.ok raw) mm ns ts s).2.cfp_prev_prices) row.Ticker
            = some p) := by
  have hpm : (refresh_data (.ok raw) mm ns ts s).2.cfp_prev_prices =
      (compute_movers (summarize_cfp_markets (fetch_cfp_markets raw))
        s.cfp_prev_prices mm).2 := rfl
  refine ⟨?_, ?_, ?_⟩
  · rw [hpm]
    exact compute_movers_np_isSome
  · intro q hq
    rw [hpm, compute_movers_snd] at hq
    rcases foldl_npStep_eq_some _ _ tk q hq with hemp | hex
    · exact absurd hemp (by simp [PriceMap.empty])
    · exact hex
  · intro hnd row hrow p hy
    rw [hpm, compute_movers_snd]
    exact foldl_npStep_nodup _ _ row p hnd hrow hy

/-- Witness for the amended C4 at a concrete snapshot and state. -/
theorem retained_state_replaced_witness :
    ((((refresh_data (.ok wMarkets) 2 "00:00:00" 0 s4).2.cfp_prev_prices)
        "OSU").isSome ↔
      ∃ row ∈ summarize_cfp_markets (fetch_cfp_markets wMarkets),
        row.Ticker = "OSU" ∧ row.YES.isSome) ∧
    (∀ q, ((refresh_data (.ok wMarkets) 2 "00:00:00" 0
        s4).2.cfp_prev_prices) "OSU" = some q →
      ∃ row ∈ summarize_cfp_markets (fetch_cfp_markets wMarkets),
        row.Ticker = "OSU" ∧ row.YES = some q) ∧
    (((summarize_cfp_markets (fetch_cfp_markets wMarkets)).map
        Row.Ticker).Nodup →
      ∀ row ∈ summarize_cfp_markets (fetch_cfp_markets wMarkets),
        ∀ p, row.YES = some p →
          ((refresh_data (.ok wMarkets) 2 "00:00:00" 0
            s4).2.cfp_prev_prices) row.Ticker = some p) :=
  retained_state_replaced wMarkets 2 "00:00:00" 0 s4 "OSU"

end CFP
